import Mathlib

/-!
Verification of the chunked aggregation engine in OnlyOneCookie/.transfer
(src/1brc.go, src/boxer.go).

The Go code is shallowly embedded: bytes are natural numbers below 256,
float64 values are modelled as exact rationals, Go maps become functions
from keys (byte lists) to optional aggregates, and a Go runtime panic
(index or slice out of range) is modelled by returning none.
-/

/-- A byte of the input file, as a natural number (0 to 255). -/
abbrev Byte := Nat

/-- Result struct of src/1brc.go lines 15-20: per-station statistics.
count is a Go int64 that is only ever incremented starting from 1,
so it is modelled as a natural number. -/
structure Result where
  min : ℚ
  max : ℚ
  sum : ℚ
  count : ℕ
deriving DecidableEq

attribute [ext] Result

/-- chunk struct of src/1brc.go lines 22-26: a byte range of the file. -/
structure Chunk where
  offset : ℕ
  size : ℕ
deriving DecidableEq

/-- Go uint8 subtraction c - the byte 48, wrapping modulo 256,
as used in parseTemp via float64(c - 48). -/
def sub48 (c : Byte) : Byte := (c + 208) % 256

/-- Loop state of parseTemp in src/1brc.go lines 54-56: the accumulator,
the seen-a-decimal-point flag, and decimalPos (which the source updates
but never reads back). -/
structure PTState where
  val : ℚ
  decimal : Bool
  decimalPos : ℚ

/-- One iteration of the parseTemp loop, src/1brc.go lines 58-69. -/
def parseTempStep (st : PTState) (c : Byte) : PTState :=
  if c = 46 then { st with decimal := true }
  else if st.decimal then
    { st with val := st.val + (sub48 c : ℚ) / 10, decimalPos := st.decimalPos * 10 }
  else
    { st with val := st.val * 10 + (sub48 c : ℚ) }

/-- parseTemp of src/1brc.go lines 47-75. The source indexes s[0]
unconditionally, so the empty slice is a runtime panic, modelled as none. -/
def parseTemp (s : List Byte) : Option ℚ :=
  match s with
  | [] => none
  | c0 :: rest =>
    let body := if c0 = 45 then rest else c0 :: rest
    let st := body.foldl parseTempStep { val := 0, decimal := false, decimalPos := 1 }
    some (if c0 = 45 then -st.val else st.val)

/-- First observation of a key, src/1brc.go lines 129-136. -/
def newResult (temp : ℚ) : Result :=
  { min := temp, max := temp, sum := temp, count := 1 }

/-- Per-observation update of an existing aggregate, src/1brc.go lines 120-128. -/
def updateResult (r : Result) (temp : ℚ) : Result :=
  { min := if temp < r.min then temp else r.min
    max := if r.max < temp then temp else r.max
    sum := r.sum + temp
    count := r.count + 1 }

/-- Merge of a local aggregate r into a global aggregate, src/1brc.go lines 212-220. -/
def mergeResult (final r : Result) : Result :=
  { min := if r.min < final.min then r.min else final.min
    max := if final.max < r.max then r.max else final.max
    sum := final.sum + r.sum
    count := final.count + r.count }

/-- A Go map from station name (byte slice) to Result pointer. -/
abbrev Table := List Byte → Option Result

/-- The freshly allocated empty results map. -/
def emptyTable : Table := fun _ => none

/-- Folding one observation into a table, src/1brc.go lines 120-136. -/
def insertObs (t : Table) (key : List Byte) (temp : ℚ) : Table :=
  fun k =>
    if k = key then
      some (match t key with
            | some r => updateResult r temp
            | none => newResult temp)
    else t k

/-- The merge loop body of main, src/1brc.go lines 210-225: every key of the
local table loc is folded into the global table. -/
def mergeTables (final loc : Table) : Table :=
  fun k =>
    match final k, loc k with
    | some a, some b => some (mergeResult a b)
    | some a, none => some a
    | none, some b => some b
    | none, none => none

/-- Index of the first occurrence of target in a byte list, if any. -/
def findIdxFrom (target : Byte) : List Byte → Option ℕ
  | [] => none
  | c :: rest => if c = target then some 0 else (findIdxFrom target rest).map (fun j => j + 1)

/-- Index of the first occurrence of target at position p or later. -/
def findFrom (buf : List Byte) (target : Byte) (p : ℕ) : Option ℕ :=
  (findIdxFrom target (buf.drop p)).map (fun j => p + j)

/-- The per-line scan loop of processChunk, src/1brc.go lines 103-139.
The semicolon search (lines 105-108) has no bound, so running past the end
of the buffer is a Go index-out-of-range panic, modelled as none; the
newline search (lines 113-116) is bounded by the buffer length. parseTemp
of an empty token also panics (none). The fuel argument only bounds the
recursion; one unit per line suffices, so callers pass length + 1. -/
def scanLines : ℕ → List Byte → Table → ℕ → Option Table
  | 0, _, _, _ => none
  | fuel + 1, buf, t, pos =>
    if pos < buf.length then
      match findFrom buf 59 pos with
      | none => none
      | some semi =>
        let tempStart := semi + 1
        let tempEnd := match findFrom buf 10 tempStart with
                       | none => buf.length
                       | some e => e
        match parseTemp ((buf.take tempEnd).drop tempStart) with
        | none => none
        | some temp => scanLines fuel buf (insertObs t ((buf.take semi).drop pos) temp) (tempEnd + 1)
    else some t

/-- Start snapping of processChunk, src/1brc.go lines 88-94: when the chunk
offset is nonzero, advance past the first newline (to one past the buffer
length when the buffer has no newline). -/
def computeStart (buf : List Byte) (offset : ℕ) : ℕ :=
  if offset ≠ 0 then
    (match findIdxFrom 10 buf with
     | some i => i
     | none => buf.length) + 1
  else 0

/-- End snapping loop of processChunk, src/1brc.go lines 96-99: walk e
down while the byte before position e is not a newline. -/
def endLoop (buf : List Byte) : ℕ → ℕ
  | 0 => 0
  | e + 1 => if buf.get? e = some 10 then e + 1 else endLoop buf e

/-- End snapping of processChunk: the position after the last newline, or 0. -/
def computeEnd (buf : List Byte) : ℕ := endLoop buf buf.length

/-- processChunk, src/1brc.go lines 78-142. readData is the outcome of
io.ReadFull on the chunk byte range: none models a read error, in which
case the source returns the still-empty results map (lines 84-86). The
re-slice buf[start:end] (line 101) is a Go panic when start exceeds end,
modelled as none. -/
def processChunk (readData : Option (List Byte)) (offset : ℕ) : Option Table :=
  match readData with
  | none => some emptyTable
  | some buf =>
    let s := computeStart buf offset
    let e := computeEnd buf
    if s ≤ e then
      scanLines (buf.length + 1) ((buf.take e).drop s) emptyTable 0
    else none

/-- io.ReadFull of one chunk range from the file: exactly size bytes at
offset, or a read error (none) when the range runs past end of file. -/
def readRange (file : List Byte) (c : Chunk) : Option (List Byte) :=
  if c.offset + c.size ≤ file.length then some ((file.drop c.offset).take c.size)
  else none

/-- The worker collection of main, src/1brc.go lines 192-207: one local
table per chunk; a panic in any worker (none) aborts the run. -/
def collectTables (file : List Byte) : List Chunk → Option (List Table)
  | [] => some []
  | c :: cs =>
    match processChunk (readRange file c) c.offset, collectTables file cs with
    | some t, some ts => some (t :: ts)
    | _, _ => none

/-- The scan-then-merge pipeline of main, src/1brc.go lines 192-225:
process every chunk and fold the local tables into the global table. -/
def runPipeline (file : List Byte) (chunks : List Chunk) : Option Table :=
  match collectTables file chunks with
  | none => none
  | some ts => some (ts.foldl mergeTables emptyTable)

/-- Chunk size computation of main, src/1brc.go lines 177-181:
file size over CPU count, floored at one mebibyte. -/
def goChunkSize (fileSize numCPUs : ℕ) : ℕ :=
  let cs := fileSize / numCPUs
  if cs < 1048576 then 1048576 else cs

/-- Chunk layout loop of main, src/1brc.go lines 183-190: chunks of the
nominal size from offset 0, the last truncated to the remaining bytes.
The fuel argument only bounds the recursion: the callers pass
fileSize + 1, which the loop can never exhaust because the chunk size
is at least one mebibyte. -/
def chunkLoop (fileSize chunkSize : ℕ) : ℕ → ℕ → List Chunk
  | _, 0 => []
  | offset, fuel + 1 =>
    if offset < fileSize then
      { offset := offset
        size := if fileSize < offset + chunkSize then fileSize - offset else chunkSize } ::
        chunkLoop fileSize chunkSize (offset + chunkSize) fuel
    else []

/-- The chunk list built by main, src/1brc.go lines 177-190. -/
def mkChunks (fileSize numCPUs : ℕ) : List Chunk :=
  chunkLoop fileSize (goChunkSize fileSize numCPUs) 0 (fileSize + 1)

namespace Boxer

/-- Loop state of parseTemp in src/boxer.go lines 48-49. -/
structure PTState where
  val : ℚ
  decimal : Bool

/-- One iteration of the parseTemp loop, src/boxer.go lines 51-61. -/
def parseTempStep (st : PTState) (c : Byte) : PTState :=
  if c = 46 then { st with decimal := true }
  else if st.decimal then { st with val := st.val + (sub48 c : ℚ) / 10 }
  else { st with val := st.val * 10 + (sub48 c : ℚ) }

/-- parseTemp of src/boxer.go lines 41-67. -/
def parseTemp (s : List Byte) : Option ℚ :=
  match s with
  | [] => none
  | c0 :: rest =>
    let body := if c0 = 45 then rest else c0 :: rest
    let st := body.foldl parseTempStep { val := 0, decimal := false }
    some (if c0 = 45 then -st.val else st.val)

/-- One iteration of the line loop of calculateStats, src/boxer.go
lines 89-125: a line without a separator is skipped (continue). -/
def processLine (t : Table) (line : List Byte) : Option Table :=
  match findIdxFrom 59 line with
  | none => some t
  | some sep =>
    match parseTemp (line.drop (sep + 1)) with
    | none => none
    | some temp => some (insertObs t (line.take sep) temp)

/-- The line loop of calculateStats over the remaining lines. -/
def scanLoop (t : Table) : List (List Byte) → Option Table
  | [] => some t
  | line :: rest =>
    match processLine t line with
    | none => none
    | some t2 => scanLoop t2 rest

/-- The scanning core of calculateStats, src/boxer.go lines 80-125, on the
file already split into lines by the bufio scanner. -/
def calculateStats (lines : List (List Byte)) : Option Table :=
  scanLoop emptyTable lines

end Boxer

/-- Folding a list of (key, value) observations into a table, the
observation-level content of the scan loop in src/1brc.go lines 103-139. -/
def scanList (obs : List (List Byte × ℚ)) : Table :=
  obs.foldl (fun t ob => insertObs t ob.1 ob.2) emptyTable

/-- Concatenation of a partition of the observation sequence into chunks. -/
def concatChunks : List (List (List Byte × ℚ)) → List (List Byte × ℚ)
  | [] => []
  | l :: ls => l ++ concatChunks ls

/-- An aggregate represents the nonempty observation multiset with first
element v and remaining elements vs (in fold order): its fields are the
running minimum, maximum, sum and count of those observations. -/
def Result.represents (r : Result) (v : ℚ) (vs : List ℚ) : Prop :=
  r.min = vs.foldl Min.min v ∧ r.max = vs.foldl Max.max v ∧
  r.sum = v + vs.sum ∧ r.count = vs.length + 1

/-- The concrete file a;1 newline b;2 newline c;3 newline. -/
def fileThreeLines : List Byte := [97, 59, 49, 10, 98, 59, 50, 10, 99, 59, 51, 10]

/-- The concrete file a;1 newline b;2 newline. -/
def fileTwoLines : List Byte := [97, 59, 49, 10, 98, 59, 50, 10]

/-- Claim C5: the numeric parser is exact on the one-fractional-digit
format: the tokens -3.2, 0.0 and 100 parse to exactly -16/5, 0 and 100,
so re-formatting to one decimal digit reproduces the original digits. -/
theorem parseTemp_roundtrip_eval :
    parseTemp [45, 51, 46, 50] = some (-(16 / 5)) ∧
    parseTemp [48, 46, 48] = some 0 ∧
    parseTemp [49, 48, 48] = some 100 := by
  norm_num [parseTemp, parseTempStep, sub48]

/-- Claim C4: on the token 1.25 both parsers return 17/10 = 1.7, not 5/4 =
1.25: each fractional digit contributes digit / 10 regardless of its
position (the decimalPos accumulator of src/1brc.go is never read), so the
claimed digit / 10 ^ position contribution is false for the second
fractional digit. -/
theorem parseTemp_two_fraction_digits :
    parseTemp [49, 46, 50, 53] = some (17 / 10) ∧
    parseTemp [49, 46, 50, 53] ≠ some (5 / 4) ∧
    Boxer.parseTemp [49, 46, 50, 53] = some (17 / 10) := by
  norm_num [parseTemp, parseTempStep, Boxer.parseTemp, Boxer.parseTempStep, sub48]

/-- Claim C1 (evaluated): the pipeline drops the line at a chunk seam.
On the file a;1 b;2 c;3 (newline-terminated lines) cut into the adjacent
chunks [0, 6) and [6, 12), the seam cuts the line b;2 mid-line: the first
chunk trims it away at its end and the second chunk skips past its
newline, so the merged table has no entry for key b, although the
single-chunk run folds b;2 in. On the file a;1 b;2 cut at byte 4 the
boundary falls exactly on a newline: the second chunk still skips its
whole first line, so b is again dropped. -/
theorem chunk_seam_drops_line :
    ((runPipeline fileThreeLines [{ offset := 0, size := 6 }, { offset := 6, size := 6 }]).map
        (fun t => (t [97], t [98], t [99]))
      = some (some { min := 1, max := 1, sum := 1, count := 1 }, none,
              some { min := 3, max := 3, sum := 3, count := 1 })) ∧
    ((runPipeline fileThreeLines [{ offset := 0, size := 12 }]).map (fun t => t [98])
      = some (some { min := 2, max := 2, sum := 2, count := 1 })) ∧
    ((runPipeline fileTwoLines [{ offset := 0, size := 4 }, { offset := 4, size := 4 }]).map
        (fun t => t [98])
      = some none) ∧
    ((runPipeline fileTwoLines [{ offset := 0, size := 8 }]).map (fun t => t [98])
      = some (some { min := 2, max := 2, sum := 2, count := 1 })) := by
  refine ⟨?_, ?_, ?_, ?_⟩ <;>
    norm_num [runPipeline, collectTables, readRange, processChunk, computeStart, computeEnd,
      endLoop, scanLines, findFrom, findIdxFrom, parseTemp, parseTempStep, sub48, insertObs,
      newResult, updateResult, mergeResult, mergeTables, emptyTable, fileThreeLines,
      fileTwoLines, List.take, List.drop]

/-- Claim C3 (evaluated): a failed chunk read is not surfaced as an error;
processChunk returns the empty local table, and the pipeline silently
merges it (shown on a chunk whose range lies past end of file, so that
io.ReadFull reports a short read). -/
theorem read_error_yields_empty_table :
    (∀ offset : ℕ, processChunk none offset = some emptyTable) ∧
    runPipeline [] [{ offset := 0, size := 5 }] = some emptyTable := by
  constructor
  · intro offset; rfl
  · rfl

/-- Claim C7 (evaluated): the empty file yields an empty global table with
no error and a one-line file a;1 yields the single aggregate with
min = max = sum = 1 and count = 1, but the file consisting of one newline
makes the semicolon scan run past the end of the trimmed buffer, a Go
index-out-of-range panic (none), not an empty table. -/
theorem boundary_files_eval :
    runPipeline [] (mkChunks 0 4) = some emptyTable ∧
    runPipeline [10] (mkChunks 1 4) = none ∧
    (runPipeline [97, 59, 49, 10] (mkChunks 4 4)).map (fun t => (t [97], t [98]))
      = some (some { min := 1, max := 1, sum := 1, count := 1 }, none) := by
  refine ⟨rfl, ?_, ?_⟩ <;>
    norm_num [runPipeline, collectTables, readRange, processChunk, computeStart, computeEnd,
      endLoop, scanLines, findFrom, findIdxFrom, parseTemp, parseTempStep, sub48, insertObs,
      newResult, updateResult, mergeResult, mergeTables, emptyTable, mkChunks, goChunkSize,
      chunkLoop, List.take, List.drop]

/-- Claim C8 (evaluated): on a line with no semicolon the two programs
diverge and neither scan of src/1brc.go is bounded: processChunk scans
past the end of the buffer x newline and panics (none), while the boxer
scanner skips the separator-less line and keeps processing later lines. -/
theorem separator_policy_eval :
    processChunk (some [120, 10]) 0 = none ∧
    Boxer.calculateStats [[120]] = some emptyTable ∧
    (Boxer.calculateStats [[120], [97, 59, 49]]).map (fun t => t [97])
      = some (some { min := 1, max := 1, sum := 1, count := 1 }) := by
  refine ⟨?_, rfl, ?_⟩ <;>
    norm_num [processChunk, computeStart, computeEnd, endLoop, scanLines, findFrom,
      findIdxFrom, Boxer.calculateStats, Boxer.scanLoop, Boxer.processLine, Boxer.parseTemp,
      Boxer.parseTempStep, sub48, insertObs, newResult, updateResult, emptyTable,
      List.take, List.drop]

/-- findIdxFrom finds nothing in a list without the target byte. -/
theorem findIdxFrom_eq_none (l : List Byte) (h : ∀ c ∈ l, c ≠ 10) :
    findIdxFrom 10 l = none := by
  induction l with
  | nil => rfl
  | cons a l ih =>
    have ha : a ≠ 10 := h a (List.mem_cons_self a l)
    have hl : ∀ c ∈ l, c ≠ 10 := fun c hc => h c (List.mem_cons_of_mem a hc)
    simp [findIdxFrom, ha, ih hl]

/-- The end-trimming loop reaches 0 on a buffer without newlines. -/
theorem endLoop_eq_zero (buf : List Byte) (h : ∀ c ∈ buf, c ≠ 10) :
    ∀ e : ℕ, endLoop buf e = 0 := by
  intro e
  induction e with
  | zero => rfl
  | succ e ih =>
    have hne : ¬ buf[e]? = some 10 := by
      rw [← List.get?_eq_getElem?]
      intro hc
      exact h 10 (List.get?_mem hc) rfl
    simp [endLoop, hne, ih]

/-- Claim C10: for a chunk at nonzero offset whose bytes contain no
newline, the start snap of processChunk lands one past the buffer length
while the end snap trims to 0, so the re-slice buf[start:end] of
src/1brc.go line 101 is out of bounds and the scanner panics (none)
instead of producing a table or an error. -/
theorem no_newline_chunk_start_exceeds_end (buf : List Byte) (offset : ℕ)
    (hoff : offset ≠ 0) (hnl : ∀ c ∈ buf, c ≠ 10) :
    computeStart buf offset = buf.length + 1 ∧ computeEnd buf = 0 ∧
    processChunk (some buf) offset = none := by
  have h1 : computeStart buf offset = buf.length + 1 := by
    simp [computeStart, hoff, findIdxFrom_eq_none buf hnl]
  have h2 : computeEnd buf = 0 := endLoop_eq_zero buf hnl buf.length
  refine ⟨h1, h2, ?_⟩
  simp [processChunk, h1, h2]

/-- Witness for claim C10 at the concrete three-byte chunk a;1 with
offset 4: the hypotheses hold and the scanner panics. -/
theorem no_newline_chunk_witness :
    ((4 : ℕ) ≠ 0 ∧ ∀ c ∈ ([97, 59, 49] : List Byte), c ≠ 10) ∧
    (computeStart [97, 59, 49] 4 = 4 ∧ computeEnd [97, 59, 49] = 0 ∧
      processChunk (some [97, 59, 49]) 4 = none) :=
  ⟨⟨by decide, by decide⟩,
    no_newline_chunk_start_exceeds_end [97, 59, 49] 4 (by decide) (by decide)⟩

/-- The chunk loop emits nothing once the offset has reached the file size. -/
theorem chunkLoop_stop (F cs off : ℕ) (h : ¬ off < F) :
    ∀ fuel : ℕ, chunkLoop F cs off fuel = [] := by
  intro fuel
  cases fuel with
  | zero => rfl
  | succ fuel => simp [chunkLoop, h]

/-- Element i of the chunk loop output, for adequate fuel: offset
off + i times the chunk size, truncated size, and nothing past the file. -/
theorem chunkLoop_get_eq (F cs : ℕ) (hcs : 0 < cs) :
    ∀ (i off fuel : ℕ), F ≤ off + fuel →
      (chunkLoop F cs off fuel).get? i
        = if off + i * cs < F
          then some { offset := off + i * cs, size := min cs (F - (off + i * cs)) }
          else none := by
  intro i
  induction i with
  | zero =>
    intro off fuel hfuel
    cases fuel with
    | zero =>
      have hnof : ¬ off + 0 * cs < F := by omega
      simp only [chunkLoop, if_neg hnof, List.get?]
    | succ fuel =>
      by_cases hof : off < F
      · have hof2 : off + 0 * cs < F := by omega
        simp only [chunkLoop, if_pos hof, if_pos hof2, List.get?]
        have hsz : (if F < off + cs then F - off else cs) = min cs (F - (off + 0 * cs)) := by
          rw [Nat.min_def]
          split_ifs <;> omega
        rw [hsz]
        have h0 : off + 0 * cs = off := by ring
        rw [h0]
      · have hof2 : ¬ off + 0 * cs < F := by omega
        simp only [chunkLoop, if_neg hof, if_neg hof2, List.get?]
  | succ i ih =>
    intro off fuel hfuel
    cases fuel with
    | zero =>
      have h2 : ¬ off + (i + 1) * cs < F := by
        have := Nat.le_add_right off ((i + 1) * cs)
        omega
      simp only [chunkLoop, if_neg h2, List.get?]
    | succ fuel =>
      by_cases hof : off < F
      · have hfuel2 : F ≤ (off + cs) + fuel := by omega
        have harith : off + cs + i * cs = off + (i + 1) * cs := by ring
        simp only [chunkLoop, if_pos hof, List.get?]
        rw [ih (off + cs) fuel hfuel2, harith]
      · have h2 : ¬ off + (i + 1) * cs < F := by
          have := Nat.le_add_right off ((i + 1) * cs)
          omega
        simp only [chunkLoop, if_neg hof, if_neg h2, List.get?]

/-- The chunk sizes produced by the loop sum to the remaining bytes. -/
theorem chunkLoop_sum (F cs : ℕ) (hcs : 0 < cs) :
    ∀ (fuel off : ℕ), F ≤ off + fuel →
      ((chunkLoop F cs off fuel).map Chunk.size).sum = F - off := by
  intro fuel
  induction fuel with
  | zero =>
    intro off h
    simp only [chunkLoop, List.map_nil, List.sum_nil]
    omega
  | succ fuel ih =>
    intro off h
    by_cases hof : off < F
    · have h2 : F ≤ (off + cs) + fuel := by omega
      simp only [chunkLoop, if_pos hof, List.map_cons, List.sum_cons, ih (off + cs) h2]
      split_ifs <;> omega
    · simp only [chunkLoop, if_neg hof, List.map_nil, List.sum_nil]
      omega

/-- The nominal chunk size is positive (at least one mebibyte). -/
theorem goChunkSize_pos (F C : ℕ) : 0 < goChunkSize F C := by
  simp only [goChunkSize]
  split_ifs <;> omega

/-- The nominal chunk size is the maximum of size over workers and 1 MiB. -/
theorem goChunkSize_eq_max (F C : ℕ) : goChunkSize F C = max (F / C) 1048576 := by
  simp only [goChunkSize]
  rw [Nat.max_def]
  split_ifs <;> omega

/-- The layout properties of the Range Partitioner claimed by the spec:
nominal size max(F / C, 1 MiB); chunks consecutive from offset 0, each
chunk the nominal size with the final chunk truncated to the remaining
bytes; sizes sum to F; contiguous and hence increasing and
non-overlapping; every chunk nonempty; zero chunks when F = 0. -/
def partitionerSpec (F C : ℕ) : Prop :=
  goChunkSize F C = max (F / C) 1048576 ∧
  (F = 0 → mkChunks F C = []) ∧
  ((mkChunks F C).map Chunk.size).sum = F ∧
  (∀ i : ℕ,
    (mkChunks F C).get? i
      = if i * goChunkSize F C < F
        then some { offset := i * goChunkSize F C,
                    size := min (goChunkSize F C) (F - i * goChunkSize F C) }
        else none) ∧
  (∀ (i : ℕ) (ci cj : Chunk), (mkChunks F C).get? i = some ci →
    (mkChunks F C).get? (i + 1) = some cj →
    cj.offset = ci.offset + ci.size ∧ ci.size = goChunkSize F C) ∧
  (∀ c ∈ mkChunks F C, 0 < c.size)

/-- Claim C6: the Range Partitioner of main (src/1brc.go lines 177-190)
satisfies the claimed layout for every file size F and worker count C. -/
theorem partitioner_layout (F C : ℕ) (_hC : 1 ≤ C) : partitionerSpec F C := by
  have hcs : 0 < goChunkSize F C := goChunkSize_pos F C
  have hchar : ∀ i : ℕ,
      (mkChunks F C).get? i
        = if i * goChunkSize F C < F
          then some { offset := i * goChunkSize F C,
                      size := min (goChunkSize F C) (F - i * goChunkSize F C) }
          else none := by
    intro i
    have h := chunkLoop_get_eq F (goChunkSize F C) hcs i 0 (F + 1) (by omega)
    simpa [mkChunks] using h
  refine ⟨goChunkSize_eq_max F C, ?_, ?_, hchar, ?_, ?_⟩
  · intro h
    subst h
    simpa [mkChunks] using chunkLoop_stop 0 (goChunkSize 0 C) 0 (by omega) 1
  · simpa [mkChunks] using chunkLoop_sum F (goChunkSize F C) hcs (F + 1) 0 (by omega)
  · intro i ci cj hci hcj
    rw [hchar i] at hci
    rw [hchar (i + 1)] at hcj
    by_cases h1 : i * goChunkSize F C < F
    swap
    · rw [if_neg h1] at hci
      cases hci
    rw [if_pos h1] at hci
    by_cases h2 : (i + 1) * goChunkSize F C < F
    swap
    · rw [if_neg h2] at hcj
      cases hcj
    rw [if_pos h2] at hcj
    have hci2 := Option.some.inj hci
    have hcj2 := Option.some.inj hcj
    rw [← hci2, ← hcj2]
    have harith : (i + 1) * goChunkSize F C = i * goChunkSize F C + goChunkSize F C := by ring
    rw [harith] at h2
    have hmin : min (goChunkSize F C) (F - i * goChunkSize F C) = goChunkSize F C := by
      rw [Nat.min_def]
      split_ifs with hle
      · rfl
      · omega
    constructor
    · show (i + 1) * goChunkSize F C
        = i * goChunkSize F C + min (goChunkSize F C) (F - i * goChunkSize F C)
      rw [hmin, harith]
    · exact hmin
  · intro c hc
    obtain ⟨i, hi⟩ := List.mem_iff_get?.mp hc
    rw [hchar i] at hi
    by_cases h1 : i * goChunkSize F C < F
    · rw [if_pos h1] at hi
      have hc2 := Option.some.inj hi
      rw [← hc2]
      show 0 < min (goChunkSize F C) (F - i * goChunkSize F C)
      rw [Nat.min_def]
      split_ifs <;> omega
    · rw [if_neg h1] at hi
      cases hi

/-- Witness for claim C6 at file size 3 and worker count 2. -/
theorem partitioner_layout_witness : (1 : ℕ) ≤ 2 ∧ partitionerSpec 3 2 :=
  ⟨by decide, partitioner_layout 3 2 (by decide)⟩

/-- The keep-the-smaller update written with if in the source is min. -/
theorem if_lt_eq_min (x y : ℚ) : (if y < x then y else x) = min x y := by
  rw [min_def]
  split_ifs <;> first | rfl | linarith

/-- The keep-the-larger update written with if in the source is max. -/
theorem if_lt_eq_max (x y : ℚ) : (if x < y then y else x) = max x y := by
  rw [max_def]
  split_ifs <;> first | rfl | linarith

/-- Merging aggregates is commutative. -/
theorem mergeResult_comm (a b : Result) : mergeResult a b = mergeResult b a := by
  ext
  · simp only [mergeResult]
    rw [if_lt_eq_min, if_lt_eq_min, min_comm]
  · simp only [mergeResult]
    rw [if_lt_eq_max, if_lt_eq_max, max_comm]
  · simp only [mergeResult]
    ring
  · simp only [mergeResult]
    ring

/-- Merging aggregates is associative. -/
theorem mergeResult_assoc (a b c : Result) :
    mergeResult (mergeResult a b) c = mergeResult a (mergeResult b c) := by
  ext
  · simp only [mergeResult, if_lt_eq_min]
    rw [min_assoc]
  · simp only [mergeResult, if_lt_eq_max]
    rw [max_assoc]
  · simp only [mergeResult]
    ring
  · simp only [mergeResult]
    ring

/-- Updating a merged aggregate equals merging with the updated side. -/
theorem updateResult_mergeResult (a b : Result) (v : ℚ) :
    updateResult (mergeResult a b) v = mergeResult a (updateResult b v) := by
  ext
  · simp only [updateResult, mergeResult, if_lt_eq_min]
    rw [min_assoc]
  · simp only [updateResult, mergeResult, if_lt_eq_max]
    rw [max_assoc]
  · simp only [updateResult, mergeResult]
    ring
  · simp only [updateResult, mergeResult]
    ring

/-- A per-observation update is a merge with the singleton aggregate. -/
theorem updateResult_eq_merge_new (a : Result) (v : ℚ) :
    updateResult a v = mergeResult a (newResult v) := by
  ext <;> simp [updateResult, mergeResult, newResult]

/-- Merging tables is commutative. -/
theorem mergeTables_comm (a b : Table) : mergeTables a b = mergeTables b a := by
  funext k
  simp only [mergeTables]
  cases a k <;> cases b k <;> simp [mergeResult_comm]

/-- Merging tables is associative. -/
theorem mergeTables_assoc (a b c : Table) :
    mergeTables (mergeTables a b) c = mergeTables a (mergeTables b c) := by
  funext k
  simp only [mergeTables]
  cases a k <;> cases b k <;> cases c k <;> simp [mergeResult_assoc]

/-- The empty table is a left unit of the merge. -/
theorem mergeTables_empty_left (t : Table) : mergeTables emptyTable t = t := by
  funext k
  simp only [mergeTables, emptyTable]
  cases t k <;> rfl

/-- The empty table is a right unit of the merge. -/
theorem mergeTables_empty_right (t : Table) : mergeTables t emptyTable = t := by
  funext k
  simp only [mergeTables, emptyTable]
  cases t k <;> rfl

/-- Folding an observation into a merged table equals merging with the
table holding the folded observation. -/
theorem insertObs_mergeTables (t u : Table) (key : List Byte) (v : ℚ) :
    insertObs (mergeTables t u) key v = mergeTables t (insertObs u key v) := by
  funext k
  by_cases hk : k = key
  · subst hk
    cases ht : t k <;> cases hu : u k <;>
      simp [insertObs, mergeTables, ht, hu, updateResult_mergeResult, updateResult_eq_merge_new,
        mergeResult_assoc]
  · simp [insertObs, mergeTables, hk]

/-- Scanning observations from a starting table equals merging the table
with the scan of the observations alone. -/
theorem scanList_foldl (l : List (List Byte × ℚ)) :
    ∀ t : Table, l.foldl (fun t2 ob => insertObs t2 ob.1 ob.2) t = mergeTables t (scanList l) := by
  induction l with
  | nil =>
    intro t
    simp [scanList, mergeTables_empty_right]
  | cons ob l ih =>
    intro t
    simp only [List.foldl_cons]
    rw [ih (insertObs t ob.1 ob.2)]
    have h1 : scanList (ob :: l) = mergeTables (insertObs emptyTable ob.1 ob.2) (scanList l) := by
      simp only [scanList, List.foldl_cons]
      exact ih (insertObs emptyTable ob.1 ob.2)
    rw [h1, ← mergeTables_assoc]
    rw [← insertObs_mergeTables, mergeTables_empty_right]

/-- Scanning a concatenation equals merging the scans of the pieces. -/
theorem scanList_append (l1 l2 : List (List Byte × ℚ)) :
    scanList (l1 ++ l2) = mergeTables (scanList l1) (scanList l2) := by
  rw [scanList, List.foldl_append]
  exact scanList_foldl l2 (scanList l1)

/-- Folding the merges of per-chunk scans equals one scan of all chunks. -/
theorem foldl_merge_map (ls : List (List (List Byte × ℚ))) :
    ∀ t : Table,
      (ls.map scanList).foldl mergeTables t = mergeTables t (scanList (concatChunks ls)) := by
  induction ls with
  | nil =>
    intro t
    simp [concatChunks, scanList, mergeTables_empty_right]
  | cons l ls ih =>
    intro t
    simp only [List.map_cons, List.foldl_cons, concatChunks]
    rw [ih (mergeTables t (scanList l)), scanList_append, ← mergeTables_assoc]

/-- Folding table merges is invariant under permutation of the tables. -/
theorem foldl_merge_perm (ts ts2 : List Table) (h : List.Perm ts ts2) :
    ∀ t : Table, ts.foldl mergeTables t = ts2.foldl mergeTables t := by
  induction h with
  | nil => intro t; rfl
  | cons x _ ih =>
    intro t
    simp only [List.foldl_cons]
    exact ih (mergeTables t x)
  | swap x y l =>
    intro t
    simp only [List.foldl_cons]
    have hxy : mergeTables (mergeTables t y) x = mergeTables (mergeTables t x) y := by
      rw [mergeTables_assoc, mergeTables_assoc, mergeTables_comm y x]
    rw [hxy]
  | trans _ _ ih1 ih2 =>
    intro t
    exact (ih1 t).trans (ih2 t)

/-- Claim C2: the table merge of main is commutative and associative, the
chunked scan-then-merge of any partition of the observations equals the
single-chunk scan, and the merged global table does not depend on the
order in which the local tables arrive. -/
theorem merge_chunking_order_independent :
    (∀ a b : Table, mergeTables a b = mergeTables b a) ∧
    (∀ a b c : Table, mergeTables (mergeTables a b) c = mergeTables a (mergeTables b c)) ∧
    (∀ chunksObs : List (List (List Byte × ℚ)),
      (chunksObs.map scanList).foldl mergeTables emptyTable
        = scanList (concatChunks chunksObs)) ∧
    (∀ ts ts2 : List Table, List.Perm ts ts2 →
      ts.foldl mergeTables emptyTable = ts2.foldl mergeTables emptyTable) := by
  refine ⟨mergeTables_comm, mergeTables_assoc, ?_, ?_⟩
  · intro ls
    rw [foldl_merge_map ls emptyTable, mergeTables_empty_left]
  · intro ts ts2 h
    exact foldl_merge_perm ts ts2 h emptyTable

/-- Witness for claim C2: swapping two concrete one-key local tables
permutes the merge list and leaves the global table unchanged. -/
theorem merge_chunking_order_independent_witness :
    List.Perm [scanList [([97], 1)], scanList [([98], 2)]]
      [scanList [([98], 2)], scanList [([97], 1)]] ∧
    ([scanList [([97], 1)], scanList [([98], 2)]] : List Table).foldl mergeTables emptyTable
      = ([scanList [([98], 2)], scanList [([97], 1)]] : List Table).foldl mergeTables emptyTable :=
  ⟨List.Perm.swap (scanList [([98], 2)]) (scanList [([97], 1)]) [],
    merge_chunking_order_independent.2.2.2 _ _
      (List.Perm.swap (scanList [([98], 2)]) (scanList [([97], 1)]) [])⟩

/-- A running minimum fold commutes with taking the minimum with an
earlier bound. -/
theorem foldl_min_shift (l : List ℚ) :
    ∀ a w : ℚ, l.foldl Min.min (min a w) = min a (l.foldl Min.min w) := by
  induction l with
  | nil => intro a w; rfl
  | cons c l ih =>
    intro a w
    simp only [List.foldl_cons]
    rw [min_assoc, ih]

/-- A running maximum fold commutes with taking the maximum with an
earlier bound. -/
theorem foldl_max_shift (l : List ℚ) :
    ∀ a w : ℚ, l.foldl Max.max (max a w) = max a (l.foldl Max.max w) := by
  induction l with
  | nil => intro a w; rfl
  | cons c l ih =>
    intro a w
    simp only [List.foldl_cons]
    rw [max_assoc, ih]

/-- The running minimum never exceeds its starting value. -/
theorem foldl_min_le (v : ℚ) (l : List ℚ) : l.foldl Min.min v ≤ v := by
  induction l generalizing v with
  | nil => exact le_refl v
  | cons c l ih =>
    simp only [List.foldl_cons]
    exact le_trans (ih (min v c)) (min_le_left v c)

/-- The running maximum is at least its starting value. -/
theorem le_foldl_max (v : ℚ) (l : List ℚ) : v ≤ l.foldl Max.max v := by
  induction l generalizing v with
  | nil => exact le_refl v
  | cons c l ih =>
    simp only [List.foldl_cons]
    exact le_trans (le_max_left v c) (ih (max v c))

/-- Claim C9: every aggregate created by first insertion, grown by
per-observation updates, or combined by merges represents exactly the
observations folded into it, and every such aggregate satisfies
min less or equal max, count at least 1, count equal to the number of
observations, sum equal to their sum, and sum over count their mean. -/
theorem aggregate_invariant :
    (∀ v : ℚ, (newResult v).represents v []) ∧
    (∀ (r : Result) (v t : ℚ) (vs : List ℚ), r.represents v vs →
      (updateResult r t).represents v (vs ++ [t])) ∧
    (∀ (a b : Result) (v w : ℚ) (vs ws : List ℚ), a.represents v vs → b.represents w ws →
      (mergeResult a b).represents v (vs ++ w :: ws)) ∧
    (∀ (r : Result) (v : ℚ) (vs : List ℚ), r.represents v vs →
      r.min ≤ r.max ∧ 1 ≤ r.count ∧ r.count = (v :: vs).length ∧ r.sum = (v :: vs).sum ∧
      r.sum / (r.count : ℚ) = (v :: vs).sum / ((v :: vs).length : ℚ)) := by
  refine ⟨?_, ?_, ?_, ?_⟩
  · intro v
    simp [Result.represents, newResult]
  · rintro r v t vs ⟨h1, h2, h3, h4⟩
    refine ⟨?_, ?_, ?_, ?_⟩
    · simp only [updateResult, List.foldl_append, List.foldl_cons, List.foldl_nil]
      rw [h1, if_lt_eq_min]
    · simp only [updateResult, List.foldl_append, List.foldl_cons, List.foldl_nil]
      rw [h2, if_lt_eq_max]
    · simp only [updateResult, List.sum_append, List.sum_cons, List.sum_nil]
      rw [h3]
      ring
    · simp only [updateResult, List.length_append, List.length_cons, List.length_nil]
      omega
  · rintro a b v w vs ws ⟨ha1, ha2, ha3, ha4⟩ ⟨hb1, hb2, hb3, hb4⟩
    refine ⟨?_, ?_, ?_, ?_⟩
    · simp only [mergeResult, List.foldl_append, List.foldl_cons]
      rw [ha1, hb1, if_lt_eq_min, foldl_min_shift]
    · simp only [mergeResult, List.foldl_append, List.foldl_cons]
      rw [ha2, hb2, if_lt_eq_max, foldl_max_shift]
    · simp only [mergeResult, List.sum_append, List.sum_cons]
      rw [ha3, hb3]
      ring
    · simp only [mergeResult, List.length_append, List.length_cons]
      omega
  · rintro r v vs ⟨h1, h2, h3, h4⟩
    have hminmax : r.min ≤ r.max := by
      rw [h1, h2]
      exact le_trans (foldl_min_le v vs) (le_foldl_max v vs)
    refine ⟨hminmax, by omega, by simp [h4], by simp [h3], ?_⟩
    rw [h3, h4]
    simp only [List.sum_cons, List.length_cons]

/-- Witness for claim C9: the update preservation applied to the
singleton aggregate of value 1 updated with value 2. -/
theorem aggregate_invariant_witness :
    Result.represents (newResult 1) 1 [] ∧
    Result.represents (updateResult (newResult 1) 2) 1 [2] :=
  ⟨by simp [Result.represents, newResult],
    aggregate_invariant.2.1 (newResult 1) 1 2 []
      (by simp [Result.represents, newResult])⟩
